import Mathlib

/-!
Shallow embedding of the reward-boost allocation routines of `src/pools.ts`
(`Pool.gaugeOptimalDeposits`, lines 184-238, and `Pool.gaugeMaxBoostedDeposit`,
lines 156-181).

Modelling conventions:
* `ethers.BigNumber` values are arbitrary-precision signed integers; they are
  embedded as `Int`.  `BigNumber.div` truncates toward zero and throws on a
  zero divisor; it is embedded as `divBN` below, returning `Except`.
* The on-chain reads (multicall batch of `totalSupply` / `balanceOf`) only
  supply the numeric inputs; an account is therefore embedded as the record of
  the three balances fetched for it, listed in the input order of the
  `accounts` rest-parameter.  Account addresses are assumed pairwise distinct,
  so the `DictInterface` keyed by address is order-isomorphic to the list
  (JavaScript string-keyed objects preserve insertion order, and the keys are
  inserted in input order at line 212).
* A thrown JavaScript exception is embedded as `Except.error`; in particular
  `[].reduce(f)` with no initial value throws
  `Reduce of empty array with no initial value` (line 211 when there are no
  accounts).
* The final `ethers.utils.formatUnits(_, 18)` pass (lines 232-235, 175-178) is
  an injective decimal rendering of the integer amounts and is not modelled;
  all statements are about the integer (`BigNumber`) amounts.
-/

deriving instance DecidableEq for Except

/-- The three per-account values fetched by `gaugeOptimalDeposits`
(lines 192-198): voting-escrow balance, LP-token balance, gauge balance. -/
structure AccountData where
  veBal : Int
  lpBal : Int
  gaugeBal : Int
  deriving Repr, DecidableEq

/-- Embedding of `ethers.BigNumber.div`: throws on a zero divisor, otherwise
divides with truncation toward zero. -/
def divBN (a b : Int) : Except String Int :=
  if b = 0 then Except.error "division-by-zero" else Except.ok (a.tdiv b)

/-- Lines 205-209: `votePct[acct] = response[0].div(veTotalSupply)` computed
account by account, in input order; the first failing division aborts. -/
def mapDiv (veTS : Int) : List AccountData → Except String (List Int)
  | [] => Except.ok []
  | a :: rest =>
    match divBN a.veBal veTS with
    | Except.error e => Except.error e
    | Except.ok q =>
      match mapDiv veTS rest with
      | Except.error e => Except.error e
      | Except.ok qs => Except.ok (q :: qs)

/-- The pure value of the vote-power fractions when the divisor is nonzero. -/
def votePcts (veTS : Int) (accs : List AccountData) : List Int :=
  accs.map (fun a => a.veBal.tdiv veTS)

/-- Lines 204-209: `totalBalance`, the running sum of LP-token balance plus
gauge balance over the accounts. -/
def totalBalance (accs : List AccountData) : Int :=
  accs.foldl (fun s a => s + a.lpBal + a.gaugeBal) 0

/-- Line 211: `Object.values(votePct).reduce((sum, item) => sum.add(item))` —
JavaScript `reduce` with no initial value, which throws on an empty array. -/
def reduceSum : List Int → Except String Int
  | [] => Except.error "Reduce of empty array with no initial value"
  | x :: xs => Except.ok (xs.foldl (fun s v => s + v) x)

/-- Lines 214-221, the undersubscribed branch: in input order, each account is
assigned `votePct*gaugeTotalSupply` if that is `<` the remaining balance and
the whole remaining balance otherwise; the remaining balance is decremented,
and the loop breaks as soon as it is `<= 0`, leaving the later accounts at
their zero initialisation from line 212. -/
def underAlloc : List Int → Int → Int → List Int
  | [], _, _ => []
  | vp :: rest, gTS, tb =>
    let amount := if vp * gTS < tb then vp * gTS else tb
    let tb' := tb - amount
    if tb' ≤ 0 then amount :: rest.map (fun _ => 0)
    else amount :: underAlloc rest gTS tb'

/-- Lines 224-228: in the other branch, when `totalPct < 0` each account gets
`votePct.div(totalPct).mul(totalBalance)` (the divisor is then nonzero);
otherwise every entry keeps the zero initialisation from line 212. -/
def overAllocBase (vps : List Int) (totalPct tb : Int) : List Int :=
  if totalPct < 0 then vps.map (fun v => v.tdiv totalPct * tb)
  else List.replicate vps.length 0

/-- Line 229: `optimalBN[accounts[0]]` is incremented by `totalBalance` minus
the sum of the current values, in their (input-order) iteration order. -/
def fixRemainder : List Int → Int → List Int
  | [], _ => []
  | x :: rest, tb => (x + (tb - (x :: rest).sum)) :: rest

/-- Embedding of `Pool.gaugeOptimalDeposits` (lines 184-238), from the
fetched balances to the per-account `BigNumber` amounts, in account input
order. -/
def gaugeOptimalDepositsBN (veTS gTS : Int) (accs : List AccountData) :
    Except String (List Int) :=
  match mapDiv veTS accs with
  | Except.error e => Except.error e
  | Except.ok vps =>
    let tb := totalBalance accs
    match reduceSum vps with
    | Except.error e => Except.error e
    | Except.ok totalPct =>
      match divBN tb gTS with
      | Except.error e => Except.error e
      | Except.ok q =>
        if q < totalPct then Except.ok (underAlloc vps gTS tb)
        else Except.ok (fixRemainder (overAllocBase vps totalPct tb) tb)

/-- Lines 170-173 of `gaugeMaxBoostedDeposit`:
`resultBN[acct] = gaugeTotalSupply.mul(response[i]).div(veTotalSupply)`,
account by account in input order. -/
def mapCapDiv (veTS gTS : Int) : List Int → Except String (List Int)
  | [] => Except.ok []
  | b :: rest =>
    match divBN (gTS * b) veTS with
    | Except.error e => Except.error e
    | Except.ok q =>
      match mapCapDiv veTS gTS rest with
      | Except.error e => Except.error e
      | Except.ok qs => Except.ok (q :: qs)

/-- Embedding of `Pool.gaugeMaxBoostedDeposit` (lines 156-181): from the
voting-escrow total supply, the gauge total supply and the per-account
voting-escrow balances (the only values it fetches) to the per-account caps.
It reads no LP-token or gauge balances of the accounts. -/
def gaugeMaxBoostedDepositBN (veTS gTS : Int) (veBals : List Int) :
    Except String (List Int) :=
  mapCapDiv veTS gTS veBals

/-- One raw rest-parameter argument of the two entry points, whose TypeScript
type is `string | string[]`: either an account address or an array of them. -/
inductive CallArg where
  | str (s : String)
  | arr (xs : List String)
  deriving Repr, DecidableEq

/-- The `accounts as string[]` read of a raw argument on the non-unwrapped
path; an `arr` there is outside the typed calling convention. -/
def argAsString : CallArg → String
  | CallArg.str s => s
  | CallArg.arr _ => ""

/-- Lines 185 and 157:
`if (accounts.length == 1 && Array.isArray(accounts[0])) accounts = accounts[0]`. -/
def normalizeAccounts (args : List CallArg) : List String :=
  match args with
  | [CallArg.arr xs] => xs
  | _ => args.map argAsString

/-- Entry point `gaugeOptimalDeposits` from its raw rest-arguments, with the
fetched per-account data given by a lookup from addresses. -/
def gaugeOptimalDepositsCall (veTS gTS : Int) (lookup : String → AccountData)
    (args : List CallArg) : Except String (List Int) :=
  gaugeOptimalDepositsBN veTS gTS ((normalizeAccounts args).map lookup)

/-- Entry point `gaugeMaxBoostedDeposit` from its raw rest-arguments, with
the fetched voting-escrow balances given by a lookup from addresses. -/
def gaugeMaxBoostedDepositCall (veTS gTS : Int) (veLookup : String → Int)
    (args : List CallArg) : Except String (List Int) :=
  gaugeMaxBoostedDepositBN veTS gTS ((normalizeAccounts args).map veLookup)

/-! ### Helper lemmas -/

lemma foldl_add_eq (xs : List Int) (a : Int) :
    xs.foldl (fun s v => s + v) a = a + xs.sum := by
  induction xs generalizing a with
  | nil => simp
  | cons x xs ih => simp [List.foldl_cons, ih, List.sum_cons]; ring

lemma reduceSum_cons (v : Int) (vs : List Int) :
    reduceSum (v :: vs) = Except.ok ((v :: vs).sum) := by
  simp [reduceSum, foldl_add_eq]

lemma totalBalance_foldl (accs : List AccountData) (s : Int) :
    accs.foldl (fun s a => s + a.lpBal + a.gaugeBal) s =
      s + (accs.map (fun a => a.lpBal + a.gaugeBal)).sum := by
  induction accs generalizing s with
  | nil => simp
  | cons a rest ih => simp [List.foldl_cons, ih, List.sum_cons]; ring

lemma totalBalance_eq (accs : List AccountData) :
    totalBalance accs = (accs.map (fun a => a.lpBal + a.gaugeBal)).sum := by
  simpa using totalBalance_foldl accs 0

lemma totalBalance_nonneg (accs : List AccountData)
    (h : ∀ a ∈ accs, 0 ≤ a.lpBal ∧ 0 ≤ a.gaugeBal) : 0 ≤ totalBalance accs := by
  rw [totalBalance_eq]
  refine List.sum_nonneg ?_
  intro x hx
  rcases List.mem_map.mp hx with ⟨a, ha, rfl⟩
  have := h a ha
  omega

lemma mapDiv_ok (veTS : Int) (accs : List AccountData) (hve : veTS ≠ 0) :
    mapDiv veTS accs = Except.ok (votePcts veTS accs) := by
  induction accs with
  | nil => simp [mapDiv, votePcts]
  | cons a rest ih => simp [mapDiv, divBN, hve, ih, votePcts]

lemma gaugeOptimalDepositsBN_run (veTS gTS : Int) (accs : List AccountData)
    (hve : veTS ≠ 0) (hg : gTS ≠ 0) (hne : accs ≠ []) :
    gaugeOptimalDepositsBN veTS gTS accs =
      (if (totalBalance accs).tdiv gTS < (votePcts veTS accs).sum then
        Except.ok (underAlloc (votePcts veTS accs) gTS (totalBalance accs))
      else
        Except.ok (fixRemainder
          (overAllocBase (votePcts veTS accs) ((votePcts veTS accs).sum)
            (totalBalance accs)) (totalBalance accs))) := by
  match accs, hne with
  | a :: rest, _ =>
    have hv : votePcts veTS (a :: rest) =
        a.veBal.tdiv veTS :: votePcts veTS rest := rfl
    simp only [gaugeOptimalDepositsBN, mapDiv_ok veTS (a :: rest) hve, hv,
      reduceSum_cons, divBN, hg, if_false]

lemma zero_list_sum (l : List Int) : (l.map (fun _ => (0 : Int))).sum = 0 := by
  simp

lemma underAlloc_sum (vps : List Int) (gTS tb : Int)
    (h0 : 0 ≤ tb) (h1 : tb < gTS * vps.sum) :
    (underAlloc vps gTS tb).sum = tb := by
  induction vps generalizing tb with
  | nil => simp at h1; omega
  | cons vp rest ih =>
    rw [underAlloc]
    by_cases hc : vp * gTS < tb
    · have htb' : 0 < tb - vp * gTS := by omega
      have hbr : ¬ tb - vp * gTS ≤ 0 := by omega
      simp only [hc, if_true, hbr, if_false, List.sum_cons]
      have h1' : tb - vp * gTS < gTS * rest.sum := by
        rw [List.sum_cons] at h1
        have : gTS * (vp + rest.sum) = vp * gTS + gTS * rest.sum := by ring
        omega
      rw [ih (tb - vp * gTS) (le_of_lt htb') h1']
      ring
    · simp only [hc, if_false, sub_self, le_refl, if_true, List.sum_cons,
        zero_list_sum]
      ring

lemma fixRemainder_sum (l : List Int) (tb : Int) (hne : l ≠ []) :
    (fixRemainder l tb).sum = tb := by
  match l, hne with
  | x :: rest, _ =>
    rw [fixRemainder]
    simp only [List.sum_cons]
    ring

lemma overAllocBase_ne_nil (vps : List Int) (totalPct tb : Int)
    (hne : vps ≠ []) : overAllocBase vps totalPct tb ≠ [] := by
  rw [overAllocBase]
  by_cases h : totalPct < 0
  · simp [h, hne]
  · simp only [h, if_false]
    match vps, hne with
    | v :: rest, _ => simp [List.replicate]

/-! ### Claim theorems -/

/-- Claim C1: for every input (accounts with their voting-escrow, LP-token and
gauge balances, the supplies positive — the chain values are non-negative and
the claim requires them non-zero), whenever `gaugeOptimalDeposits` returns,
the returned amounts sum exactly to `totalBalance`, the sum over all accounts
of LP-token balance plus gauge balance (conservation). -/
theorem gaugeOptimalDeposits_conservation (veTS gTS : Int)
    (accs : List AccountData) (out : List Int)
    (hve : 0 < veTS) (hg : 0 < gTS)
    (hnn : ∀ a ∈ accs, 0 ≤ a.veBal ∧ 0 ≤ a.lpBal ∧ 0 ≤ a.gaugeBal)
    (hok : gaugeOptimalDepositsBN veTS gTS accs = Except.ok out) :
    out.sum = totalBalance accs := by
  match accs with
  | [] => simp [gaugeOptimalDepositsBN, mapDiv, reduceSum] at hok
  | a :: rest =>
    have hne : (a :: rest : List AccountData) ≠ [] := by simp
    rw [gaugeOptimalDepositsBN_run veTS gTS _ (ne_of_gt hve) (ne_of_gt hg) hne]
      at hok
    have htb0 : 0 ≤ totalBalance (a :: rest) :=
      totalBalance_nonneg _ (fun x hx => ⟨(hnn x hx).2.1, (hnn x hx).2.2⟩)
    by_cases hc : (totalBalance (a :: rest)).tdiv gTS <
        (votePcts veTS (a :: rest)).sum
    · rw [if_pos hc] at hok
      injection hok with h
      subst h
      have hlt : totalBalance (a :: rest) <
          gTS * (votePcts veTS (a :: rest)).sum := by
        rw [Int.tdiv_eq_ediv htb0 (le_of_lt hg)] at hc
        have h2 := (Int.ediv_lt_iff_lt_mul hg).mp hc
        simpa [mul_comm] using h2
      exact underAlloc_sum _ _ _ htb0 hlt
    · rw [if_neg hc] at hok
      injection hok with h
      subst h
      refine fixRemainder_sum _ _ ?_
      exact overAllocBase_ne_nil _ _ _ (by simp [votePcts])

/-- Claim C1, witness: a concrete run through the oversubscribed branch. -/
theorem gaugeOptimalDeposits_conservation_witness :
    [(20 : Int), 0].sum = totalBalance [⟨6, 5, 5⟩, ⟨4, 5, 5⟩] :=
  gaugeOptimalDeposits_conservation 10 10 [⟨6, 5, 5⟩, ⟨4, 5, 5⟩] [20, 0]
    (by decide) (by decide) (by decide) (by decide)

/-- Claim C3, counterexample: with vote-power fractions 0.6 and 0.4 (in
18-decimal fixed point, voting-escrow balances 0.6e18 and 0.4e18 against a
total supply of 1e18), gaugeTotalSupply = 100e18 and balances of 100e18 per
account, `gaugeOptimalDeposits` does NOT return A = 120, B = 80: the plain
integer division truncates both fractions to zero. -/
theorem gaugeOptimalDeposits_scenario_cex :
    gaugeOptimalDepositsBN 1000000000000000000 100000000000000000000
      [⟨600000000000000000, 100000000000000000000, 0⟩,
       ⟨400000000000000000, 100000000000000000000, 0⟩] ≠
      Except.ok [120000000000000000000, 80000000000000000000] := by decide

/-- Claim C3, amended: on that input the else (oversubscribed/balanced) branch
is taken, but both truncated vote-power fractions are zero, so the whole
remainder `totalBalance` goes to the first account: A = 200, B = 0, still
summing exactly to 200 (all amounts in 18-decimal fixed point). -/
theorem gaugeOptimalDeposits_scenario_amended :
    gaugeOptimalDepositsBN 1000000000000000000 100000000000000000000
      [⟨600000000000000000, 100000000000000000000, 0⟩,
       ⟨400000000000000000, 100000000000000000000, 0⟩] =
      Except.ok [200000000000000000000, 0] := by decide

/-- Claim C5: with a zero gauge total supply, `gaugeOptimalDeposits` always
fails (for non-degenerate inputs, precisely with the unguarded
division-by-zero at `totalBalance.div(gaugeTotalSupply)`); it never returns a
result. -/
theorem gaugeOptimalDeposits_zero_gauge_supply_fails (veTS : Int)
    (accs : List AccountData) :
    ∃ e, gaugeOptimalDepositsBN veTS 0 accs = Except.error e := by
  match accs with
  | [] => exact ⟨_, rfl⟩
  | a :: rest =>
    by_cases hve : veTS = 0
    · subst hve
      exact ⟨"division-by-zero", by simp [gaugeOptimalDepositsBN, mapDiv, divBN]⟩
    · refine ⟨"division-by-zero", ?_⟩
      have hv : votePcts veTS (a :: rest) =
          a.veBal.tdiv veTS :: votePcts veTS rest := rfl
      simp [gaugeOptimalDepositsBN, mapDiv_ok veTS (a :: rest) hve, hv,
        reduceSum_cons, divBN]

/-- Claim C6: called with zero accounts, `gaugeOptimalDeposits` does NOT
return an empty mapping — line 211 reduces the empty `votePct` value array
with no initial value, which throws. -/
theorem gaugeOptimalDeposits_empty_accounts_fails (veTS gTS : Int) :
    gaugeOptimalDepositsBN veTS gTS [] =
      Except.error "Reduce of empty array with no initial value" := rfl

lemma fixRemainder_eq (l : List Int) (tb : Int) (hne : l ≠ []) :
    fixRemainder l tb = (l.headI + (tb - l.sum)) :: l.tail := by
  match l, hne with
  | x :: rest, _ => rfl

/-- Claim C2: whenever the oversubscribed/balanced branch is taken (the
truncated quotient `totalBalance / gaugeTotalSupply` is not less than
`totalSharePct`), the allocations are: each account gets
`votePowerFraction / totalSharePct × totalBalance` when `totalSharePct` is
negative and zero otherwise, and then the remainder `totalBalance` minus the
sum of those allocations is added entirely to the first account in input
order, so the branch's output sums exactly to `totalBalance`. -/
theorem gaugeOptimalDeposits_oversub_branch (veTS gTS : Int)
    (accs : List AccountData) (hve : veTS ≠ 0) (hg : gTS ≠ 0)
    (hne : accs ≠ [])
    (hbr : ¬ (totalBalance accs).tdiv gTS < (votePcts veTS accs).sum) :
    ∃ out : List Int,
      gaugeOptimalDepositsBN veTS gTS accs = Except.ok out ∧
      out.sum = totalBalance accs ∧
      out =
        (let vps := votePcts veTS accs
         let tp := vps.sum
         let tb := totalBalance accs
         let base : List Int :=
           if tp < 0 then vps.map (fun v => v.tdiv tp * tb)
           else List.replicate vps.length 0
         (base.headI + (tb - base.sum)) :: base.tail) := by
  have hrun := gaugeOptimalDepositsBN_run veTS gTS accs hve hg hne
  rw [if_neg hbr] at hrun
  have hbase_ne : overAllocBase (votePcts veTS accs)
      ((votePcts veTS accs).sum) (totalBalance accs) ≠ [] :=
    overAllocBase_ne_nil _ _ _ (by simpa [votePcts] using hne)
  refine ⟨_, hrun, fixRemainder_sum _ _ hbase_ne, ?_⟩
  rw [fixRemainder_eq _ _ hbase_ne]
  rfl

/-- Claim C2, witness: a single account in the balanced branch. -/
theorem gaugeOptimalDeposits_oversub_branch_witness :
    ∃ out : List Int,
      gaugeOptimalDepositsBN 10 10 [⟨6, 5, 5⟩] = Except.ok out ∧
      out.sum = totalBalance [⟨6, 5, 5⟩] := by
  obtain ⟨out, h1, h2, h3⟩ :=
    gaugeOptimalDeposits_oversub_branch 10 10 [⟨6, 5, 5⟩]
      (by decide) (by decide) (by decide) (by decide)
  exact ⟨out, h1, h2⟩

/-- The undersubscribed branch as the spec words it (claim C4): iterate the
accounts in input order; give each account
`min(votePowerFraction × gaugeTotalSupply, remainingBalance)`; decrement the
remaining balance by the amount given; stop early once the remaining balance
reaches zero; every later account receives zero. -/
def specUnderAlloc : List Int → Int → Int → List Int
  | [], _, _ => []
  | vp :: rest, gTS, tb =>
    let amount := min (vp * gTS) tb
    let tb' := tb - amount
    if tb' = 0 then amount :: rest.map (fun _ => 0)
    else amount :: specUnderAlloc rest gTS tb'

lemma underAlloc_eq_spec (vps : List Int) (gTS tb : Int) :
    underAlloc vps gTS tb = specUnderAlloc vps gTS tb := by
  induction vps generalizing tb with
  | nil => rfl
  | cons vp rest ih =>
    simp only [underAlloc, specUnderAlloc]
    have hamt : (if vp * gTS < tb then vp * gTS else tb) = min (vp * gTS) tb := by
      split <;> omega
    rw [hamt]
    by_cases hz : tb - min (vp * gTS) tb = 0
    · have hle : tb - min (vp * gTS) tb ≤ 0 := by omega
      simp [hz, hle]
    · have hle : ¬ tb - min (vp * gTS) tb ≤ 0 := by omega
      simp [hz, hle, ih]

/-- Claim C4: in the undersubscribed branch (taken when the truncated quotient
`totalBalance / gaugeTotalSupply` is less than `totalSharePct`), the output is
exactly the spec's description `specUnderAlloc`: accounts processed in input
order, each receiving the minimum of `votePowerFraction × gaugeTotalSupply`
and the remaining balance, the remaining balance decremented, the loop
stopping once the remaining balance reaches zero, all later accounts zero. -/
theorem gaugeOptimalDeposits_undersub_branch (veTS gTS : Int)
    (accs : List AccountData) (hve : veTS ≠ 0) (hg : gTS ≠ 0)
    (hne : accs ≠ [])
    (hbr : (totalBalance accs).tdiv gTS < (votePcts veTS accs).sum) :
    gaugeOptimalDepositsBN veTS gTS accs =
      Except.ok (specUnderAlloc (votePcts veTS accs) gTS (totalBalance accs)) := by
  rw [gaugeOptimalDepositsBN_run veTS gTS accs hve hg hne, if_pos hbr,
    underAlloc_eq_spec]

/-- Claim C4, witness: the spec's own scenario (fractions 1 and 0 after
truncation, gauge total supply 1000, balances 100 + 100): the first account
is capped at the whole remaining 200 and the second gets zero. -/
theorem gaugeOptimalDeposits_undersub_branch_witness :
    gaugeOptimalDepositsBN 10 1000 [⟨10, 100, 0⟩, ⟨0, 100, 0⟩] =
      Except.ok (specUnderAlloc (votePcts 10 [⟨10, 100, 0⟩, ⟨0, 100, 0⟩]) 1000
        (totalBalance [⟨10, 100, 0⟩, ⟨0, 100, 0⟩])) :=
  gaugeOptimalDeposits_undersub_branch 10 1000 [⟨10, 100, 0⟩, ⟨0, 100, 0⟩]
    (by decide) (by decide) (by decide) (by decide)

lemma mapCapDiv_ok (veTS gTS : Int) (veBals : List Int) (hve : veTS ≠ 0) :
    mapCapDiv veTS gTS veBals =
      Except.ok (veBals.map (fun b => (gTS * b).tdiv veTS)) := by
  induction veBals with
  | nil => rfl
  | cons b rest ih => simp [mapCapDiv, divBN, hve, ih]

/-- Claim C7: `gaugeMaxBoostedDeposit` maps every account to the cap
`gaugeTotalSupply × votingEscrowBalance / votingEscrowTotalSupply` with
truncating division — its only per-account input is the voting-escrow
balance, so it is independent of LP-token and gauge balances — and any
account with a zero voting-escrow balance (vote-power fraction 0) gets cap 0
regardless of the supplies. -/
theorem gaugeMaxBoostedDeposit_cap (veTS gTS : Int) (veBals : List Int)
    (hve : veTS ≠ 0) :
    gaugeMaxBoostedDepositBN veTS gTS veBals =
      Except.ok (veBals.map (fun b => (gTS * b).tdiv veTS)) ∧
    ∀ out : List Int,
      gaugeMaxBoostedDepositBN veTS gTS veBals = Except.ok out →
      ∀ i (h1 : i < veBals.length) (h2 : i < out.length),
        veBals[i] = 0 → out[i] = 0 := by
  have hmain : gaugeMaxBoostedDepositBN veTS gTS veBals =
      Except.ok (veBals.map (fun b => (gTS * b).tdiv veTS)) :=
    mapCapDiv_ok veTS gTS veBals hve
  refine ⟨hmain, ?_⟩
  intro out hout i h1 h2 hz
  rw [hmain] at hout
  injection hout with h
  subst h
  rw [List.getElem_map, hz]
  simp [Int.zero_tdiv]

/-- Claim C7, witness: caps 17 and 0 for voting-escrow balances 25 and 0 with
supplies 10 and 7. -/
theorem gaugeMaxBoostedDeposit_cap_witness :
    gaugeMaxBoostedDepositBN 10 7 [25, 0] = Except.ok [17, 0] :=
  ((gaugeMaxBoostedDeposit_cap 10 7 [25, 0] (by decide)).1).trans (by decide)

/-- Claim C8: both allocation routines are deterministic pure computations
over their inputs — identical account data, balances and supplies yield
identical outputs, with no hidden state. -/
theorem gauge_functions_deterministic (veTSa veTSb gTSa gTSb : Int)
    (accsa accsb : List AccountData) (veBalsa veBalsb : List Int)
    (h1 : veTSa = veTSb) (h2 : gTSa = gTSb) (h3 : accsa = accsb)
    (h4 : veBalsa = veBalsb) :
    gaugeOptimalDepositsBN veTSa gTSa accsa =
      gaugeOptimalDepositsBN veTSb gTSb accsb ∧
    gaugeMaxBoostedDepositBN veTSa gTSa veBalsa =
      gaugeMaxBoostedDepositBN veTSb gTSb veBalsb := by
  subst h1; subst h2; subst h3; subst h4
  exact ⟨rfl, rfl⟩

/-- Claim C8, witness. -/
theorem gauge_functions_deterministic_witness :
    gaugeOptimalDepositsBN 10 10 [⟨6, 5, 5⟩] =
      gaugeOptimalDepositsBN 10 10 [⟨6, 5, 5⟩] ∧
    gaugeMaxBoostedDepositBN 10 10 [6] = gaugeMaxBoostedDepositBN 10 10 [6] :=
  gauge_functions_deterministic 10 10 10 10 [⟨6, 5, 5⟩] [⟨6, 5, 5⟩] [6] [6]
    rfl rfl rfl rfl

/-- Claim C9: the per-account vote-power fraction of `gaugeOptimalDeposits`
is the plain truncating integer quotient of the voting-escrow balance by the
voting-escrow total supply (no 18-decimal rescaling), so it is exactly zero
for every account whose voting-escrow balance is strictly below the total
supply — the computation `mapDiv` then yields all zeros. -/
theorem votePct_plain_truncating_div (veTS : Int) (accs : List AccountData)
    (h : ∀ a ∈ accs, 0 ≤ a.veBal ∧ a.veBal < veTS) :
    mapDiv veTS accs = Except.ok (List.replicate accs.length 0) := by
  induction accs with
  | nil => rfl
  | cons a rest ih =>
    have ha := h a (by simp)
    have hpos : 0 < veTS := lt_of_le_of_lt ha.1 ha.2
    have hz : a.veBal.tdiv veTS = 0 := by
      rw [Int.tdiv_eq_ediv ha.1 (le_of_lt hpos)]
      exact Int.ediv_eq_zero_of_lt ha.1 ha.2
    have hrest := ih (fun x hx => h x (by simp [hx]))
    simp [mapDiv, divBN, ne_of_gt hpos, hz, hrest, List.replicate]

/-- Claim C9, witness: an 18-decimal fixed-point balance of 0.6 against a
total supply of 1.0 truncates to the fraction 0. -/
theorem votePct_plain_truncating_div_witness :
    mapDiv 1000000000000000000 [⟨600000000000000000, 0, 0⟩] =
      Except.ok (List.replicate 1 0) :=
  votePct_plain_truncating_div 1000000000000000000
    [⟨600000000000000000, 0, 0⟩] (by decide)

lemma map_argAsString_map_str (xs : List String) :
    (xs.map CallArg.str).map argAsString = xs := by
  induction xs with
  | nil => rfl
  | cons x rest ih => simp [argAsString, ih]

lemma normalizeAccounts_spread (xs : List String) :
    normalizeAccounts (xs.map CallArg.str) = xs := by
  match xs with
  | [] => rfl
  | [x] => rfl
  | x :: y :: rest =>
    show (CallArg.str x :: CallArg.str y :: rest.map CallArg.str).map
        argAsString = x :: y :: rest
    simp only [List.map_cons, argAsString, map_argAsString_map_str]

/-- Claim C10: for every account list, calling either entry point with the
whole list as a single array argument yields the same result as spreading
its elements as separate string arguments — line 185 (resp. 157) unwraps the
single-array form to the same normalized account list. -/
theorem call_forms_agree (veTS gTS : Int) (lookup : String → AccountData)
    (veLookup : String → Int) (xs : List String) :
    gaugeOptimalDepositsCall veTS gTS lookup [CallArg.arr xs] =
      gaugeOptimalDepositsCall veTS gTS lookup (xs.map CallArg.str) ∧
    gaugeMaxBoostedDepositCall veTS gTS veLookup [CallArg.arr xs] =
      gaugeMaxBoostedDepositCall veTS gTS veLookup (xs.map CallArg.str) := by
  have harr : normalizeAccounts [CallArg.arr xs] = xs := rfl
  constructor <;>
    simp [gaugeOptimalDepositsCall, gaugeMaxBoostedDepositCall, harr,
      normalizeAccounts_spread]
